import Mathlib

/-!
Verification of the key-step tag segmentation parser `parseKeySteps` from
`frontend/src/components/KeyStepRenderer.tsx`.

Strings are modelled as `List Char` (one entry per UTF-16-ish code point; all
inputs of interest are plain text where this coincides with JS strings).
JS string primitives used by the source are embedded as `jsIndexOf`
(`String.prototype.indexOf`), `jsSlice` (two-argument `slice` with a
non-negative end index; the source's negative end index is translated to the
clamped subtraction `length - 13`), `jsTrim` (`String.prototype.trim`) and
`jsWS` (the whitespace class used both by `trim` and by the regex `\s`).

The two regular expressions of the source, `/id=([^\s]+)(\s|$)/` and
`/theorem="([^"]*)"/`, are embedded as `matchId` and `matchTheorem`: both
regexes are scanned left to right; `id=` must be followed by a non-empty run
of non-whitespace characters (the run is maximal, so the trailing `(\s|$)`
never backtracks), and `theorem="` must be followed by a run of non-quote
characters terminated by a closing quote.

The scanning loop of `parseKeySteps` is embedded with an explicit fuel
argument so that the definition is structurally recursive and computable by
the kernel; `text.length + 1` units of fuel are provably sufficient (each
iteration that continues drops at least the 13 characters of the terminator),
which is established as part of claim C5.
-/

set_option maxRecDepth 8000

/-- Whitespace class of JavaScript: the characters matched by the regex
class `\s` and stripped by `String.prototype.trim`. -/
def jsWS (c : Char) : Bool :=
  c == ' ' || c == '\t' || c == '\n' || c == '\r' || c == '\x0b' || c == '\x0c' ||
    c == '\u00A0' || c == '\u1680' || (decide ('\u2000' ≤ c) && decide (c ≤ '\u200A')) ||
    c == '\u2028' || c == '\u2029' || c == '\u202F' || c == '\u205F' ||
    c == '\u3000' || c == '\uFEFF'


/-- Embedding of `String.prototype.trim`: remove whitespace from both ends. -/
def jsTrim (l : List Char) : List Char :=
  ((l.dropWhile jsWS).reverse.dropWhile jsWS).reverse

/-- Embedding of `String.prototype.indexOf(pat)`: index of the first
occurrence of `pat`, or `none` when there is no occurrence (JS `-1`). -/
def jsIndexOf (pat : List Char) : List Char → Option Nat
  | [] => if pat = [] then some 0 else none
  | c :: rest =>
    if pat <+: c :: rest then some 0 else (jsIndexOf pat rest).map (fun n => n + 1)

/-- Embedding of `String.prototype.indexOf(pat, start)` for a non-negative
`start`: index of the first occurrence of `pat` at or after `start`. -/
def jsIndexOfFrom (pat l : List Char) (start : Nat) : Option Nat :=
  (jsIndexOf pat (l.drop start)).map (fun n => n + start)

/-- Embedding of `String.prototype.slice(a, b)` for non-negative indices:
the characters of positions `a` (inclusive) to `b` (exclusive), clamped. -/
def jsSlice (l : List Char) (a b : Nat) : List Char :=
  (l.take b).drop a

/-- The opening marker `"[[KEY_STEP"` of the source, as an explicit
character list (see `startTag_eq`). -/
def startTag : List Char := ['[', '[', 'K', 'E', 'Y', '_', 'S', 'T', 'E', 'P']

/-- The closing delimiter `"[[/KEY_STEP]]"` of the source, as an explicit
character list (see `endTag_eq`). -/
def endTag : List Char := ['[', '[', '/', 'K', 'E', 'Y', '_', 'S', 'T', 'E', 'P', ']', ']']

/-- The header terminator `"]]"` searched by `tagAndContent.indexOf("]]")`. -/
def closeBrackets : List Char := [']', ']']

/-- The literal part `id=` of the source regex `/id=([^\s]+)(\s|$)/`. -/
def idPat : List Char := ['i', 'd', '=']

/-- The literal part `theorem="` of the source regex `/theorem="([^"]*)"/`. -/
def thmPat : List Char := ['t', 'h', 'e', 'o', 'r', 'e', 'm', '=', '\"']

/-- Embedding of `header.match(/id=([^\s]+)(\s|$)/)`, returning capture
group 1: scan left to right for `id=` followed by at least one non-whitespace
character; the captured value is the maximal non-whitespace run (after which
`(\s|$)` necessarily matches, so the regex never backtracks). -/
def matchId : List Char → Option (List Char)
  | [] => none
  | c :: rest =>
    if idPat <+: c :: rest then
      let tok := ((c :: rest).drop idPat.length).takeWhile (fun ch => !jsWS ch)
      if tok.isEmpty then matchId rest else some tok
    else matchId rest

/-- Embedding of `header.match(/theorem="([^"]*)"/)`, returning capture
group 1: scan left to right for `theorem="`; the captured value is the run of
non-quote characters after it, valid only when a closing quote follows. -/
def matchTheorem : List Char → Option (List Char)
  | [] => none
  | c :: rest =>
    if thmPat <+: c :: rest then
      let after := (c :: rest).drop thmPat.length
      let val := after.takeWhile (fun ch => ch != '\"')
      if val.length < after.length then some val else matchTheorem rest
    else matchTheorem rest

/-- The two values of the `type` field of `KeyStepSegment` in the source:
`"normal"` and `"key"`. -/
inductive SegType where
  | normal
  | key
deriving DecidableEq, Repr

/-- The `KeyStepSegment` interface of the source: a segment type, the segment
text, and the optional `id` and `theorem` attributes (the `theorem` field is
named `thm` here because `theorem` is a Lean keyword). -/
structure KeyStepSegment where
  type : SegType
  text : List Char
  id : Option (List Char)
  thm : Option (List Char)
deriving DecidableEq, Repr

/-- Embedding of the tag-with-terminator case of the scanning loop of
`parseKeySteps` (source lines 40-53): cut out `tagAndContent` from the
marker through the terminator, locate the header end (first `"]]"` of
`tagAndContent`, always present because `endTag` ends in `"]]"`; the
`getD 0` default is unreachable and stands for the JS `-1`), extract the
trimmed header and the body between header end and terminator, and build the
`key` segment with the matched `id` and `theorem` attributes. -/
def keySegment (text : List Char) (startIdx endIdx : Nat) : KeyStepSegment :=
  let tagAndContent := jsSlice text startIdx (endIdx + endTag.length)
  let headerEnd := (jsIndexOf closeBrackets tagAndContent).getD 0
  let header := jsTrim (jsSlice tagAndContent startTag.length headerEnd)
  let body := jsSlice tagAndContent (headerEnd + 2) (tagAndContent.length - endTag.length)
  ⟨SegType.key, body, matchId header, matchTheorem header⟩

/-- One-to-one embedding of the scanning loop of `parseKeySteps` (source
lines 20-56), with fuel making the recursion structural. Each iteration:
find the next `startTag`; if absent, emit the remaining text as a `normal`
segment when it is non-empty and stop; otherwise emit the (non-empty) prefix
as a `normal` segment, look for `endTag` from the marker position; if absent
emit the rest from the marker as a `normal` segment and stop; otherwise emit
the `keySegment` of the tag region and continue after the terminator. -/
def parseKeyStepsGo : Nat → List Char → List KeyStepSegment
  | 0, _ => []
  | fuel + 1, text =>
    match jsIndexOf startTag text with
    | none => if text.isEmpty then [] else [⟨SegType.normal, text, none, none⟩]
    | some startIdx =>
      let pre : List KeyStepSegment :=
        if 0 < startIdx then [⟨SegType.normal, jsSlice text 0 startIdx, none, none⟩] else []
      match jsIndexOfFrom endTag text startIdx with
      | none => pre ++ [⟨SegType.normal, text.drop startIdx, none, none⟩]
      | some endIdx =>
        pre ++ keySegment text startIdx endIdx
          :: parseKeyStepsGo fuel (text.drop (endIdx + endTag.length))

/-- Embedding of `parseKeySteps` of the source: run the scanning loop with
provably sufficient fuel. -/
def parseKeySteps (text : List Char) : List KeyStepSegment :=
  parseKeyStepsGo (text.length + 1) text

/-- Concatenation of the `text` fields of a segment list, in order. -/
def concatTexts (segs : List KeyStepSegment) : List Char :=
  segs.foldr (fun seg acc => seg.text ++ acc) []

/-- Stripping transformation under the pairing convention the code actually
implements (the amended form of claim C1): each start marker is paired with
the first `"[[/KEY_STEP]]"` terminator at or after the marker itself; the
removed opening portion of the tag region runs through two places past the
region's first `"]]"` (clamped to the region), the terminator is removed,
and the text between them is kept; a start marker with no following
terminator, and everything after it, is left verbatim. This is a direct
text-to-text transformation, independent of the segment data model. -/
def stripTagsGo : Nat → List Char → List Char
  | 0, _ => []
  | fuel + 1, text =>
    match jsIndexOf startTag text with
    | none => text
    | some startIdx =>
      match jsIndexOfFrom endTag text startIdx with
      | none => text
      | some endIdx =>
        let tagRegion := jsSlice text startIdx (endIdx + endTag.length)
        let headerEnd := (jsIndexOf closeBrackets tagRegion).getD 0
        jsSlice text 0 startIdx
          ++ jsSlice tagRegion (headerEnd + 2) (tagRegion.length - endTag.length)
          ++ stripTagsGo fuel (text.drop (endIdx + endTag.length))

/-- Wrapper running `stripTagsGo` with the same fuel as `parseKeySteps`. -/
def stripTags (text : List Char) : List Char :=
  stripTagsGo (text.length + 1) text

/-- Modelled from the spec: the stripping transformation exactly as the
spec's segmentation-completeness wording and grammar (section 4.1) describe
it. The header is the text between the opening marker and the first `"]]"`
after the marker; the search for the terminator `"[[/KEY_STEP]]"` starts
*after* the header; for each such well-formed wrapper the opening
`[[KEY_STEP ...]]` header and the closing terminator are removed and the
body between them is kept; when no header end or no terminator is found
(malformed/unterminated tag), the remainder from the start marker onward —
hence the whole remaining text — is left verbatim and scanning stops. -/
def specStripGo : Nat → List Char → List Char
  | 0, _ => []
  | fuel + 1, text =>
    match jsIndexOf startTag text with
    | none => text
    | some startIdx =>
      match jsIndexOfFrom closeBrackets text (startIdx + startTag.length) with
      | none => text
      | some headerEnd =>
        match jsIndexOfFrom endTag text (headerEnd + closeBrackets.length) with
        | none => text
        | some endIdx =>
          jsSlice text 0 startIdx ++ jsSlice text (headerEnd + closeBrackets.length) endIdx
            ++ specStripGo fuel (text.drop (endIdx + endTag.length))

/-- Wrapper running the spec-modelled `specStripGo` with sufficient fuel. -/
def specStrip (text : List Char) : List Char :=
  specStripGo (text.length + 1) text

/-- The character list of `startTag` spells the source string `"[[KEY_STEP"`. -/
theorem startTag_eq : startTag = "[[KEY_STEP".data := rfl

/-- The character list of `endTag` spells the source string `"[[/KEY_STEP]]"`. -/
theorem endTag_eq : endTag = "[[/KEY_STEP]]".data := rfl

/-- The character list of `closeBrackets` spells the source string `"]]"`. -/
theorem closeBrackets_eq : closeBrackets = "]]".data := rfl

/-- The character list of `idPat` spells `id=`. -/
theorem idPat_eq : idPat = "id=".data := rfl

/-- The character list of `thmPat` spells `theorem="`. -/
theorem thmPat_eq : thmPat = "theorem=\"".data := rfl

/-! Internal lemmas about the embedded string primitives. -/

/-- A prefix is no longer than the list it is a prefix of. -/
theorem len_le_of_pre {l₁ l₂ : List Char} (h : l₁ <+: l₂) : l₁.length ≤ l₂.length := by
  obtain ⟨t, ht⟩ := h
  subst ht
  simp

/-- A found occurrence fits inside the searched list. -/
theorem jsIndexOf_some_bound {pat : List Char} :
    ∀ {l : List Char} {i : Nat}, jsIndexOf pat l = some i → i + pat.length ≤ l.length := by
  intro l
  induction l with
  | nil =>
    intro i h
    simp only [jsIndexOf] at h
    split at h
    · rename_i hp
      subst hp
      simp at h
      omega
    · exact absurd h (by simp)
  | cons c rest ih =>
    intro i h
    simp only [jsIndexOf] at h
    split at h
    · rename_i hp
      have := len_le_of_pre hp
      simp at h
      omega
    · simp only [Option.map_eq_some'] at h
      obtain ⟨j, hj, hji⟩ := h
      have := ih hj
      simp only [List.length_cons]
      omega

/-- A found occurrence is at or after the search start and fits inside the
searched list (for a non-empty pattern). -/
theorem jsIndexOfFrom_some_bound {pat l : List Char} {s e : Nat}
    (h : jsIndexOfFrom pat l s = some e) (hpat : pat ≠ []) :
    s ≤ e ∧ e + pat.length ≤ l.length := by
  simp only [jsIndexOfFrom, Option.map_eq_some'] at h
  obtain ⟨j, hj, hje⟩ := h
  have hb := jsIndexOf_some_bound hj
  have hlen : (l.drop s).length = l.length - s := List.length_drop s l
  have hp : 0 < pat.length := List.length_pos.mpr hpat
  omega

/-- The scanning loop gives the same result under any sufficient fuel. -/
theorem parseKeyStepsGo_fuel_eq :
    ∀ (f g : Nat) (text : List Char), text.length < f → text.length < g →
      parseKeyStepsGo f text = parseKeyStepsGo g text := by
  intro f
  induction f with
  | zero => intro g text hf; omega
  | succ f ih =>
    intro g text hf hg
    match g, hg with
    | g + 1, hg =>
      simp only [parseKeyStepsGo]
      split
      · rfl
      · rename_i startIdx h1
        split
        · rfl
        · rename_i endIdx h2
          have hb := jsIndexOfFrom_some_bound h2 (by decide)
          have hd : (text.drop (endIdx + endTag.length)).length < f := by
            have : endTag.length = 13 := by decide
            simp only [List.length_drop]
            omega
          have hd' : (text.drop (endIdx + endTag.length)).length < g := by
            have : endTag.length = 13 := by decide
            simp only [List.length_drop]
            omega
          rw [ih g (text.drop (endIdx + endTag.length)) hd hd']

/-- Unfolding of `parseKeySteps` when no start marker occurs. -/
theorem parseKeySteps_no_tag {text : List Char} (h : jsIndexOf startTag text = none) :
    parseKeySteps text =
      if text.isEmpty then [] else [⟨SegType.normal, text, none, none⟩] := by
  simp only [parseKeySteps, parseKeyStepsGo, h]

/-- Unfolding of `parseKeySteps` when a start marker occurs but no terminator
follows it: the prefix (when non-empty) and the whole rest from the marker
are emitted as `normal` segments and scanning stops. -/
theorem parseKeySteps_malformed {text : List Char} {startIdx : Nat}
    (h1 : jsIndexOf startTag text = some startIdx)
    (h2 : jsIndexOfFrom endTag text startIdx = none) :
    parseKeySteps text =
      (if 0 < startIdx then [⟨SegType.normal, jsSlice text 0 startIdx, none, none⟩] else [])
        ++ [⟨SegType.normal, text.drop startIdx, none, none⟩] := by
  simp only [parseKeySteps, parseKeyStepsGo, h1, h2]

/-- Unfolding of `parseKeySteps` when a start marker occurs and a terminator
is found at or after it: the prefix (when non-empty) is emitted as a `normal`
segment, the tag region becomes its `keySegment`, and scanning resumes
immediately after the terminator. -/
theorem parseKeySteps_key_step {text : List Char} {startIdx endIdx : Nat}
    (h1 : jsIndexOf startTag text = some startIdx)
    (h2 : jsIndexOfFrom endTag text startIdx = some endIdx) :
    parseKeySteps text =
      (if 0 < startIdx then [⟨SegType.normal, jsSlice text 0 startIdx, none, none⟩] else [])
        ++ keySegment text startIdx endIdx
          :: parseKeySteps (text.drop (endIdx + endTag.length)) := by
  have hb := jsIndexOfFrom_some_bound h2 (by decide)
  have h13 : endTag.length = 13 := by decide
  show parseKeyStepsGo (text.length + 1) text = _
  simp only [parseKeyStepsGo, h1, h2]
  rw [parseKeyStepsGo_fuel_eq text.length ((text.drop (endIdx + endTag.length)).length + 1)
    (text.drop (endIdx + endTag.length))
    (by simp only [List.length_drop]; omega) (by omega)]
  rfl

/-- Concatenating segment texts, cons case. -/
theorem concatTexts_cons (s : KeyStepSegment) (l : List KeyStepSegment) :
    concatTexts (s :: l) = s.text ++ concatTexts l := rfl

/-- Concatenating segment texts distributes over list append. -/
theorem concatTexts_append (a b : List KeyStepSegment) :
    concatTexts (a ++ b) = concatTexts a ++ concatTexts b := by
  induction a with
  | nil => rfl
  | cons x xs ih =>
    simp only [List.cons_append, concatTexts, List.foldr_cons] at *
    rw [ih, List.append_assoc]

/-- Concatenating the texts of the produced segments agrees with the direct
stripping function, under sufficient fuel on both sides. -/
theorem concat_parseKeyStepsGo_eq_stripTagsGo :
    ∀ (fuel : Nat) (text : List Char), text.length < fuel →
      concatTexts (parseKeyStepsGo fuel text) = stripTagsGo fuel text := by
  intro fuel
  induction fuel with
  | zero => intro text h; omega
  | succ fuel ih =>
    intro text h
    simp only [parseKeyStepsGo, stripTagsGo]
    cases h1 : jsIndexOf startTag text with
    | none =>
      simp only [h1]
      cases text with
      | nil => rfl
      | cons c cs => simp [concatTexts]
    | some startIdx =>
      cases h2 : jsIndexOfFrom endTag text startIdx with
      | none =>
        simp only [h1, h2]
        rw [concatTexts_append]
        by_cases hip : 0 < startIdx
        · simp only [hip, if_pos, concatTexts, List.foldr_cons, List.foldr_nil, jsSlice,
            List.drop_zero, List.append_nil]
          exact List.take_append_drop startIdx text
        · have : startIdx = 0 := by omega
          subst this
          simp [concatTexts]
      | some endIdx =>
        have hb := jsIndexOfFrom_some_bound h2 (by decide)
        have h13 : endTag.length = 13 := by decide
        have hbs := jsIndexOf_some_bound h1
        have hd : (text.drop (endIdx + endTag.length)).length < fuel := by
          simp only [List.length_drop]
          omega
        simp only [h1, h2]
        rw [concatTexts_append, concatTexts_cons, ih (text.drop (endIdx + endTag.length)) hd]
        by_cases hip : 0 < startIdx
        · simp only [hip, if_pos, keySegment, concatTexts, List.foldr_cons, List.foldr_nil,
            jsSlice, List.drop_zero, List.append_nil, List.append_assoc]
        · have : startIdx = 0 := by omega
          subst this
          simp [keySegment, concatTexts, jsSlice]

/-- Every element of a `takeWhile` satisfies the predicate. -/
theorem mem_takeWhile_pred {p : Char → Bool} :
    ∀ {l : List Char} {c : Char}, c ∈ l.takeWhile p → p c = true := by
  intro l
  induction l with
  | nil => intro c h; simp [List.takeWhile] at h
  | cons a as ih =>
    intro c h
    simp only [List.takeWhile] at h
    cases hp : p a with
    | false => rw [hp] at h; simp at h
    | true =>
      rw [hp] at h
      rcases List.mem_cons.mp h with h | h
      · subst h; exact hp
      · exact ih h

/-- A successful `id` attribute match yields a non-empty token without
whitespace characters. -/
theorem matchId_some :
    ∀ {l v : List Char}, matchId l = some v → v ≠ [] ∧ ∀ c ∈ v, jsWS c = false := by
  intro l
  induction l with
  | nil => intro v h; simp [matchId] at h
  | cons a as ih =>
    intro v h
    simp only [matchId] at h
    split at h
    · split at h
      · exact ih h
      · rename_i hne
        rw [Option.some.injEq] at h
        subst h
        constructor
        · intro hnil
          rw [hnil] at hne
          simp at hne
        · intro c hc
          have := mem_takeWhile_pred hc
          simpa using this
    · exact ih h

/-- A successful `theorem` attribute match yields a value without a double
quote character. -/
theorem matchTheorem_some :
    ∀ {l v : List Char}, matchTheorem l = some v → ∀ c ∈ v, c ≠ '\"' := by
  intro l
  induction l with
  | nil => intro v h; simp [matchTheorem] at h
  | cons a as ih =>
    intro v h
    simp only [matchTheorem] at h
    split at h
    · split at h
      · rw [Option.some.injEq] at h
        subst h
        intro c hc
        have := mem_takeWhile_pred hc
        simpa using this
      · exact ih h
    · exact ih h

/-- Segments of the (possibly emitted) non-empty-prefix list are `normal`
with non-empty text and absent attributes. -/
theorem mem_pre {text : List Char} {startIdx : Nat} {seg : KeyStepSegment}
    (h1 : jsIndexOf startTag text = some startIdx)
    (h : seg ∈ (if 0 < startIdx then
      [(⟨SegType.normal, jsSlice text 0 startIdx, none, none⟩ : KeyStepSegment)] else [])) :
    seg.type = SegType.normal ∧ seg.text ≠ [] ∧ seg.id = none ∧ seg.thm = none := by
  split at h
  · rename_i hip
    simp only [List.mem_singleton] at h
    subst h
    have hb := jsIndexOf_some_bound h1
    have hst : startTag.length = 10 := by decide
    refine ⟨rfl, ?_, rfl, rfl⟩
    simp only [jsSlice, List.drop_zero]
    intro hnil
    have := congrArg List.length hnil
    simp only [List.length_take, List.length_nil] at this
    omega
  · simp at h

/-- Structural invariant of every segment the scanning loop emits: `normal`
segments carry non-empty text and no attributes, a present `id` is a
non-empty whitespace-free token, and a present `theorem` value contains no
double quote. -/
theorem parseKeyStepsGo_inv :
    ∀ (fuel : Nat) (text : List Char) (seg : KeyStepSegment), seg ∈ parseKeyStepsGo fuel text →
      (seg.type = SegType.normal → seg.text ≠ []) ∧
      (∀ v, seg.id = some v → v ≠ [] ∧ ∀ c ∈ v, jsWS c = false) ∧
      (∀ v, seg.thm = some v → ∀ c ∈ v, c ≠ '\"') := by
  intro fuel
  induction fuel with
  | zero => intro text seg h; simp [parseKeyStepsGo] at h
  | succ fuel ih =>
    intro text seg h
    simp only [parseKeyStepsGo] at h
    split at h
    · rename_i h1
      split at h
      · simp at h
      · rename_i hne
        simp only [List.mem_singleton] at h
        subst h
        refine ⟨fun _ => ?_, by simp, by simp⟩
        intro hnil
        subst hnil
        simp at hne
    · rename_i startIdx h1
      split at h
      · rename_i h2
        rw [List.mem_append] at h
        rcases h with h | h
        · obtain ⟨ht, hx, hid, hthm⟩ := mem_pre h1 h
          exact ⟨fun _ => hx, by rw [hid]; simp, by rw [hthm]; simp⟩
        · simp only [List.mem_singleton] at h
          subst h
          refine ⟨fun _ => ?_, by simp, by simp⟩
          have hb := jsIndexOf_some_bound h1
          have hst : startTag.length = 10 := by decide
          intro hnil
          have := congrArg List.length hnil
          simp only [List.length_drop, List.length_nil] at this
          omega
      · rename_i endIdx h2
        rw [List.mem_append] at h
        rcases h with h | h
        · obtain ⟨ht, hx, hid, hthm⟩ := mem_pre h1 h
          exact ⟨fun _ => hx, by rw [hid]; simp, by rw [hthm]; simp⟩
        · rcases List.mem_cons.mp h with h | h
          · subst h
            refine ⟨?_, ?_, ?_⟩
            · intro ht
              exact absurd ht (by simp [keySegment])
            · intro v hv
              exact matchId_some hv
            · intro v hv
              exact matchTheorem_some hv
          · exact ih (text.drop (endIdx + endTag.length)) seg h

/-! Positional scanning lemmas used for the symbolic tag-region analysis. -/

/-- Unfolding of `jsIndexOf` at a position that does not start the pattern. -/
theorem jsIndexOf_cons_of_not {pat : List Char} {c : Char} {l : List Char}
    (h : ¬ (pat <+: c :: l)) :
    jsIndexOf pat (c :: l) = (jsIndexOf pat l).map (fun n => n + 1) := by
  simp only [jsIndexOf, if_neg h]

/-- Unfolding of `jsIndexOf` at a position that starts the pattern. -/
theorem jsIndexOf_cons_of_pre {pat : List Char} {c : Char} {l : List Char}
    (h : pat <+: c :: l) : jsIndexOf pat (c :: l) = some 0 := by
  simp only [jsIndexOf, if_pos h]

/-- The terminator does not begin at a character other than `[`. -/
theorem not_endTag_pre_head {c : Char} {l : List Char} (h : c ≠ '[') :
    ¬ (endTag <+: c :: l) := by
  rintro ⟨t, ht⟩
  simp only [endTag, List.cons_append] at ht
  injection ht with h1 _
  exact h h1.symm

/-- The terminator does not begin at the start of the opening marker. -/
theorem not_endTag_pre_a {l : List Char} : ¬ (endTag <+: '[' :: '[' :: 'K' :: l) := by
  rintro ⟨t, ht⟩
  simp only [endTag, List.cons_append] at ht
  injection ht with _ ht
  injection ht with _ ht
  injection ht with h3 _
  exact absurd h3 (by decide)

/-- The terminator does not begin one position into the opening marker. -/
theorem not_endTag_pre_b {l : List Char} : ¬ (endTag <+: '[' :: 'K' :: l) := by
  rintro ⟨t, ht⟩
  simp only [endTag, List.cons_append] at ht
  injection ht with _ ht
  injection ht with h2 _
  exact absurd h2 (by decide)

/-- The header terminator `"]]"` does not begin at a character other
than `]`. -/
theorem not_closeBrackets_pre_head {c : Char} {l : List Char} (h : c ≠ ']') :
    ¬ (closeBrackets <+: c :: l) := by
  rintro ⟨t, ht⟩
  simp only [closeBrackets, List.cons_append] at ht
  injection ht with h1 _
  exact h h1.symm

/-- Scanning for the terminator across `"[[KEY_STEP]]"` finds the first
occurrence of the suffix, shifted by twelve positions. -/
theorem jsIndexOf_endTag_skip12 {rest : List Char} {k : Nat}
    (hr : jsIndexOf endTag rest = some k) :
    jsIndexOf endTag
      ('[' :: '[' :: 'K' :: 'E' :: 'Y' :: '_' :: 'S' :: 'T' :: 'E' :: 'P' :: ']' :: ']' :: rest)
      = some (12 + k) := by
  rw [jsIndexOf_cons_of_not not_endTag_pre_a,
    jsIndexOf_cons_of_not not_endTag_pre_b,
    jsIndexOf_cons_of_not (not_endTag_pre_head (by decide)),
    jsIndexOf_cons_of_not (not_endTag_pre_head (by decide)),
    jsIndexOf_cons_of_not (not_endTag_pre_head (by decide)),
    jsIndexOf_cons_of_not (not_endTag_pre_head (by decide)),
    jsIndexOf_cons_of_not (not_endTag_pre_head (by decide)),
    jsIndexOf_cons_of_not (not_endTag_pre_head (by decide)),
    jsIndexOf_cons_of_not (not_endTag_pre_head (by decide)),
    jsIndexOf_cons_of_not (not_endTag_pre_head (by decide)),
    jsIndexOf_cons_of_not (not_endTag_pre_head (by decide)),
    jsIndexOf_cons_of_not (not_endTag_pre_head (by decide)), hr]
  simp only [Option.map_some', Option.some.injEq]
  omega

/-- Scanning for the header terminator across the opening marker finds the
`"]]"` written directly after it, at position ten. -/
theorem jsIndexOf_closeBrackets_header (rest : List Char) :
    jsIndexOf closeBrackets
      ('[' :: '[' :: 'K' :: 'E' :: 'Y' :: '_' :: 'S' :: 'T' :: 'E' :: 'P' :: ']' :: ']' :: rest)
      = some 10 := by
  rw [jsIndexOf_cons_of_not (not_closeBrackets_pre_head (by decide)),
    jsIndexOf_cons_of_not (not_closeBrackets_pre_head (by decide)),
    jsIndexOf_cons_of_not (not_closeBrackets_pre_head (by decide)),
    jsIndexOf_cons_of_not (not_closeBrackets_pre_head (by decide)),
    jsIndexOf_cons_of_not (not_closeBrackets_pre_head (by decide)),
    jsIndexOf_cons_of_not (not_closeBrackets_pre_head (by decide)),
    jsIndexOf_cons_of_not (not_closeBrackets_pre_head (by decide)),
    jsIndexOf_cons_of_not (not_closeBrackets_pre_head (by decide)),
    jsIndexOf_cons_of_not (not_closeBrackets_pre_head (by decide)),
    jsIndexOf_cons_of_not (not_closeBrackets_pre_head (by decide)),
    jsIndexOf_cons_of_pre ⟨rest, rfl⟩]
  rfl

/-- Taking an append at exactly the length of the left part gives the left
part. -/
theorem take_len_append {a : List Char} (b : List Char) {n : Nat} (h : a.length = n) :
    (a ++ b).take n = a := by
  subst h
  induction a with
  | nil => rfl
  | cons x xs ih => simp only [List.cons_append, List.length_cons, List.take_succ_cons, ih]

/-- Dropping an append at exactly the length of the left part gives the
right part. -/
theorem drop_len_append {a : List Char} (b : List Char) {n : Nat} (h : a.length = n) :
    (a ++ b).drop n = b := by
  subst h
  induction a with
  | nil => rfl
  | cons x xs ih => simp only [List.cons_append, List.length_cons, List.drop_succ_cons, ih]

/-- A `takeWhile` over an append stops exactly at the first failing
character. -/
theorem takeWhile_append_stop {p : Char → Bool} {v : List Char} {q : Char} {rest : List Char}
    (hv : ∀ c ∈ v, p c = true) (hq : p q = false) :
    (v ++ q :: rest).takeWhile p = v := by
  induction v with
  | nil => simp [List.takeWhile_cons, hq]
  | cons a as ih =>
    have ha := hv a (by simp)
    simp only [List.cons_append, List.takeWhile_cons, ha, if_true, List.cons.injEq, true_and]
    exact ih (fun c hc => hv c (by simp [hc]))

/-- Unfolding of `matchTheorem` at a position where `theorem="` matches and a
closing quote follows: the captured value is the run of non-quote characters
directly after the opening quote. -/
theorem matchTheorem_cons_pre {X : List Char}
    (h : (X.takeWhile (fun ch => ch != '\"')).length < X.length) :
    matchTheorem ('t' :: 'h' :: 'e' :: 'o' :: 'r' :: 'e' :: 'm' :: '=' :: '\"' :: X)
      = some (X.takeWhile (fun ch => ch != '\"')) := by
  have hpre : thmPat <+: 't' :: 'h' :: 'e' :: 'o' :: 'r' :: 'e' :: 'm' :: '=' :: '\"' :: X :=
    ⟨X, rfl⟩
  simp only [matchTheorem, if_pos hpre]
  show (if (X.takeWhile (fun ch => ch != '\"')).length < X.length
      then some (X.takeWhile (fun ch => ch != '\"'))
      else matchTheorem ('h' :: 'e' :: 'o' :: 'r' :: 'e' :: 'm' :: '=' :: '\"' :: X))
    = some (X.takeWhile (fun ch => ch != '\"'))
  rw [if_pos h]

/-! Claim theorems. -/

/-- C1 counterexample: on `"[[KEY_STEP w[[/KEY_STEP]] r]] s[[/KEY_STEP]]"`
the concatenation of the parser's segment texts is `" r]] s[[/KEY_STEP]]"`,
while stripping the input exactly as the spec words it (`specStrip`: header
up to the first `]]` after the marker, terminator searched after the header,
wrapper removed, body kept) gives `" r]] s"`. The two differ, because the
code pairs the marker with the first terminator from the marker itself,
which here lies before the header's closing `]]`. -/
theorem c1_counterexample :
    concatTexts (parseKeySteps "[[KEY_STEP w[[/KEY_STEP]] r]] s[[/KEY_STEP]]".data) =
        " r]] s[[/KEY_STEP]]".data ∧
      specStrip "[[KEY_STEP w[[/KEY_STEP]] r]] s[[/KEY_STEP]]".data = " r]] s".data ∧
      concatTexts (parseKeySteps "[[KEY_STEP w[[/KEY_STEP]] r]] s[[/KEY_STEP]]".data) ≠
        specStrip "[[KEY_STEP w[[/KEY_STEP]] r]] s[[/KEY_STEP]]".data := by
  decide

/-- C1 amended: for every input string, concatenating the `text` fields of
the segments returned by `parseKeySteps`, in order, equals the input with
each key-step wrapper removed under the pairing the code implements — a
start marker is paired with the first `[[/KEY_STEP]]` terminator at or after
the marker itself, the removed opening portion runs through two places past
the first `]]` of the tag region (clamped to the region), the terminator is
removed and the body between them is kept — and with any malformed trailing
tag material (a start marker with no following terminator) left verbatim, as
expressed by the text-to-text transformation `stripTags`. This coincides
with the spec's after-the-header stripping whenever every tag region's
header closes before its first terminator. -/
theorem c1_segmentation_amended :
    ∀ text : List Char, concatTexts (parseKeySteps text) = stripTags text := by
  intro text
  exact concat_parseKeyStepsGo_eq_stripTagsGo (text.length + 1) text (Nat.lt_succ_self _)

/-- C2: if a `[[KEY_STEP` start marker has no following `[[/KEY_STEP]]`
terminator, `parseKeySteps` emits the (non-empty) prefix before the marker as
a `normal` segment and the entire remainder from the marker onward as a
single `normal` segment, then stops scanning; in particular
`"a [[KEY_STEP id=1]] b"` parses to `Normal("a ")`, followed by
`Normal("[[KEY_STEP id=1]] b")`. -/
theorem c2_malformed_fallback :
    (∀ (text : List Char) (startIdx : Nat),
        jsIndexOf startTag text = some startIdx →
        jsIndexOfFrom endTag text startIdx = none →
        parseKeySteps text =
          (if 0 < startIdx then [⟨SegType.normal, jsSlice text 0 startIdx, none, none⟩] else [])
            ++ [⟨SegType.normal, text.drop startIdx, none, none⟩]) ∧
    parseKeySteps "a [[KEY_STEP id=1]] b".data =
      [⟨SegType.normal, "a ".data, none, none⟩,
       ⟨SegType.normal, "[[KEY_STEP id=1]] b".data, none, none⟩] := by
  constructor
  · intro text startIdx h1 h2
    exact parseKeySteps_malformed h1 h2
  · decide

/-- Witness for C2 at the concrete input `"xy[[KEY_STEP"`. -/
theorem c2_witness :
    (jsIndexOf startTag "xy[[KEY_STEP".data = some 2 ∧
      jsIndexOfFrom endTag "xy[[KEY_STEP".data 2 = none) ∧
    parseKeySteps "xy[[KEY_STEP".data =
      (if 0 < 2 then [⟨SegType.normal, jsSlice "xy[[KEY_STEP".data 0 2, none, none⟩] else [])
        ++ [⟨SegType.normal, "xy[[KEY_STEP".data.drop 2, none, none⟩] :=
  ⟨⟨by decide, by decide⟩, c2_malformed_fallback.1 "xy[[KEY_STEP".data 2 (by decide) (by decide)⟩

/-- C3 counterexample: parsing the empty string returns the empty segment
list, not a single empty `normal` segment, so the claim fails for the empty
input it explicitly includes. -/
theorem c3_counterexample :
    parseKeySteps ([] : List Char) = [] ∧
      parseKeySteps ([] : List Char) ≠ [⟨SegType.normal, [], none, none⟩] := by
  decide

/-- C3 amended: for every non-empty input containing no occurrence of
`[[KEY_STEP`, `parseKeySteps` returns exactly one `normal` segment whose
text equals the input; for the empty input it returns the empty segment
list. -/
theorem c3_no_tag_amended :
    (∀ text : List Char, text ≠ [] → jsIndexOf startTag text = none →
        parseKeySteps text = [⟨SegType.normal, text, none, none⟩]) ∧
    parseKeySteps ([] : List Char) = [] := by
  constructor
  · intro text hne h
    have hemp : text.isEmpty = false := by
      cases text with
      | nil => exact absurd rfl hne
      | cons c cs => rfl
    rw [parseKeySteps_no_tag h, hemp]
    simp
  · decide

/-- Witness for C3 (amended part) at the concrete input `"hello"`. -/
theorem c3_witness :
    ("hello".data ≠ ([] : List Char) ∧ jsIndexOf startTag "hello".data = none) ∧
      parseKeySteps "hello".data = [⟨SegType.normal, "hello".data, none, none⟩] :=
  ⟨⟨by decide, by decide⟩, c3_no_tag_amended.1 "hello".data (by decide) (by decide)⟩

/-- C4: parsing the input
`[[KEY_STEP id=7 theorem="Hahn-Banach"]]proof body[[/KEY_STEP]]` yields
exactly one segment: a key step with id `7`, theorem `Hahn-Banach`, and text
`proof body`. -/
theorem c4_attribute_extraction :
    parseKeySteps "[[KEY_STEP id=7 theorem=\"Hahn-Banach\"]]proof body[[/KEY_STEP]]".data =
      [⟨SegType.key, "proof body".data, some "7".data, some "Hahn-Banach".data⟩] := by
  decide

/-- C5: `parseKeySteps` is total — any fuel beyond the input length makes the
scanning loop produce the same segment list (the loop always terminates
within `length + 1` iterations and never fails), and each loop iteration
that continues strictly shortens the remaining text. -/
theorem c5_totality :
    (∀ (fuel : Nat) (text : List Char), text.length < fuel →
        parseKeyStepsGo fuel text = parseKeySteps text) ∧
    (∀ (text : List Char) (startIdx endIdx : Nat),
        jsIndexOf startTag text = some startIdx →
        jsIndexOfFrom endTag text startIdx = some endIdx →
        (text.drop (endIdx + endTag.length)).length < text.length) := by
  constructor
  · intro fuel text h
    exact parseKeyStepsGo_fuel_eq fuel (text.length + 1) text h (Nat.lt_succ_self _)
  · intro text startIdx endIdx h1 h2
    have hb := jsIndexOfFrom_some_bound h2 (by decide)
    have h13 : endTag.length = 13 := by decide
    simp only [List.length_drop]
    omega

/-- Witness for C5 at the concrete input `"ab[[KEY_STEP]]c[[/KEY_STEP]]d"`. -/
theorem c5_witness :
    (("ab[[KEY_STEP]]c[[/KEY_STEP]]d".data.length < 40) ∧
      parseKeyStepsGo 40 "ab[[KEY_STEP]]c[[/KEY_STEP]]d".data =
        parseKeySteps "ab[[KEY_STEP]]c[[/KEY_STEP]]d".data) ∧
    ((jsIndexOf startTag "ab[[KEY_STEP]]c[[/KEY_STEP]]d".data = some 2 ∧
      jsIndexOfFrom endTag "ab[[KEY_STEP]]c[[/KEY_STEP]]d".data 2 = some 15) ∧
      ("ab[[KEY_STEP]]c[[/KEY_STEP]]d".data.drop (15 + endTag.length)).length <
        "ab[[KEY_STEP]]c[[/KEY_STEP]]d".data.length) :=
  ⟨⟨by decide, c5_totality.1 40 "ab[[KEY_STEP]]c[[/KEY_STEP]]d".data (by decide)⟩,
   ⟨⟨by decide, by decide⟩,
    c5_totality.2 "ab[[KEY_STEP]]c[[/KEY_STEP]]d".data 2 15 (by decide) (by decide)⟩⟩

/-- C7 counterexample: on
`"[[KEY_STEP q[[/KEY_STEP]] r]] s[[/KEY_STEP]]"` the code pairs the marker
with the terminator found from the marker position onward — which here lies
before the header's closing `]]` — producing an empty key body and a literal
trailing `normal` segment, not the single key segment with body `" r]] s"`
that a search starting after the header's closing `]]` would produce. -/
theorem c7_counterexample :
    parseKeySteps "[[KEY_STEP q[[/KEY_STEP]] r]] s[[/KEY_STEP]]".data =
      [⟨SegType.key, [], none, none⟩,
       ⟨SegType.normal, " r]] s[[/KEY_STEP]]".data, none, none⟩] ∧
    parseKeySteps "[[KEY_STEP q[[/KEY_STEP]] r]] s[[/KEY_STEP]]".data ≠
      [⟨SegType.key, " r]] s".data, none, none⟩] := by
  decide

/-- C7 amended: after a `[[KEY_STEP` start marker is found, the search for
the terminator `[[/KEY_STEP]]` begins at the start marker itself (not after
the header; the two coincide whenever the header's closing `]]` occurs
before the terminator), the resulting key-step body is exactly the text of
the tag region between two places past the header end (the first `]]` of
the region) and the terminator (empty when the header end falls inside the
terminator), and scanning resumes immediately after the terminator. -/
theorem c7_scan_from_marker_amended {text : List Char} {startIdx endIdx : Nat}
    (h1 : jsIndexOf startTag text = some startIdx)
    (h2 : jsIndexOfFrom endTag text startIdx = some endIdx) :
    parseKeySteps text =
      (if 0 < startIdx then [⟨SegType.normal, jsSlice text 0 startIdx, none, none⟩] else [])
        ++ keySegment text startIdx endIdx
          :: parseKeySteps (text.drop (endIdx + endTag.length)) ∧
    (keySegment text startIdx endIdx).text =
      jsSlice (jsSlice text startIdx (endIdx + endTag.length))
        ((jsIndexOf closeBrackets (jsSlice text startIdx (endIdx + endTag.length))).getD 0 + 2)
        ((jsSlice text startIdx (endIdx + endTag.length)).length - endTag.length) :=
  ⟨parseKeySteps_key_step h1 h2, rfl⟩

/-- Witness for C7 (amended) at the concrete input
`"pre[[KEY_STEP id=2]]B[[/KEY_STEP]]post"`. -/
theorem c7_witness :
    (jsIndexOf startTag "pre[[KEY_STEP id=2]]B[[/KEY_STEP]]post".data = some 3 ∧
      jsIndexOfFrom endTag "pre[[KEY_STEP id=2]]B[[/KEY_STEP]]post".data 3 = some 21) ∧
    (parseKeySteps "pre[[KEY_STEP id=2]]B[[/KEY_STEP]]post".data =
      (if 0 < 3 then
        [⟨SegType.normal, jsSlice "pre[[KEY_STEP id=2]]B[[/KEY_STEP]]post".data 0 3, none, none⟩]
       else [])
        ++ keySegment "pre[[KEY_STEP id=2]]B[[/KEY_STEP]]post".data 3 21
          :: parseKeySteps ("pre[[KEY_STEP id=2]]B[[/KEY_STEP]]post".data.drop (21 + endTag.length)) ∧
     (keySegment "pre[[KEY_STEP id=2]]B[[/KEY_STEP]]post".data 3 21).text =
      jsSlice (jsSlice "pre[[KEY_STEP id=2]]B[[/KEY_STEP]]post".data 3 (21 + endTag.length))
        ((jsIndexOf closeBrackets
          (jsSlice "pre[[KEY_STEP id=2]]B[[/KEY_STEP]]post".data 3 (21 + endTag.length))).getD 0 + 2)
        ((jsSlice "pre[[KEY_STEP id=2]]B[[/KEY_STEP]]post".data 3 (21 + endTag.length)).length
          - endTag.length)) :=
  ⟨⟨by decide, by decide⟩, c7_scan_from_marker_amended (by decide) (by decide)⟩

/-- C8 counterexample: in the header `theorem="a\"b"` the extracted value is
`a\` — the backslash-escaped quote terminates the value — rather than the
`a\"b` that an escape-aware scan would extract. -/
theorem c8_counterexample :
    parseKeySteps "[[KEY_STEP theorem=\"a\\\"b\"]]x[[/KEY_STEP]]".data =
      [⟨SegType.key, "x".data, none, some "a\\".data⟩] ∧
    some "a\\".data ≠ some "a\\\"b".data := by
  decide

/-- C8 amended: when a key-step header contains `theorem="`, the extracted
theorem attribute value is everything following `theorem="` up to the next
double quote, whether or not that quote is preceded by a backslash (an
escaped quote also terminates the value). -/
theorem c8_theorem_value_amended {v rest : List Char} (hv : ∀ c ∈ v, c ≠ '\"') :
    matchTheorem (thmPat ++ (v ++ '\"' :: rest)) = some v := by
  have hval : (v ++ '\"' :: rest).takeWhile (fun ch => ch != '\"') = v :=
    takeWhile_append_stop (fun c hc => by simpa using hv c hc) (by decide)
  have hlen : ((v ++ '\"' :: rest).takeWhile (fun ch => ch != '\"')).length
      < (v ++ '\"' :: rest).length := by
    rw [hval]
    simp only [List.length_append, List.length_cons]
    omega
  have hmain := matchTheorem_cons_pre hlen
  rw [hval] at hmain
  simpa [thmPat] using hmain

/-- Witness for C8 (amended) with the value `a\` followed by a quote. -/
theorem c8_witness :
    (∀ c ∈ "a\\".data, c ≠ '\"') ∧
      matchTheorem (thmPat ++ ("a\\".data ++ '\"' :: "x".data)) = some "a\\".data :=
  ⟨by decide, c8_theorem_value_amended (by decide)⟩

/-- C9: every `normal` segment emitted by `parseKeySteps` has non-empty
text; in particular parsing the empty string returns the empty segment
list. -/
theorem c9_normal_nonempty :
    (∀ (text : List Char) (seg : KeyStepSegment), seg ∈ parseKeySteps text →
        seg.type = SegType.normal → seg.text ≠ []) ∧
    parseKeySteps ([] : List Char) = [] := by
  constructor
  · intro text seg h ht
    exact (parseKeyStepsGo_inv (text.length + 1) text seg h).1 ht
  · decide

/-- Witness for C9 at the concrete input `"x"`. -/
theorem c9_witness :
    ((⟨SegType.normal, "x".data, none, none⟩ : KeyStepSegment) ∈ parseKeySteps "x".data ∧
        (⟨SegType.normal, "x".data, none, none⟩ : KeyStepSegment).type = SegType.normal) ∧
      (⟨SegType.normal, "x".data, none, none⟩ : KeyStepSegment).text ≠ [] :=
  ⟨⟨by decide, rfl⟩,
   c9_normal_nonempty.1 "x".data ⟨SegType.normal, "x".data, none, none⟩ (by decide) rfl⟩

/-- C10: in every segment returned by `parseKeySteps`, a present `id`
attribute is a non-empty token containing no whitespace, and a present
`theorem` attribute contains no double-quote character. -/
theorem c10_attribute_invariants :
    ∀ (text : List Char) (seg : KeyStepSegment), seg ∈ parseKeySteps text →
      (∀ v, seg.id = some v → v ≠ [] ∧ ∀ c ∈ v, jsWS c = false) ∧
      (∀ v, seg.thm = some v → ∀ c ∈ v, c ≠ '\"') := by
  intro text seg h
  exact (parseKeyStepsGo_inv (text.length + 1) text seg h).2

/-- Witness for C10 at the parsed segment of the input
`[[KEY_STEP id=7 theorem="Hahn-Banach"]]proof body[[/KEY_STEP]]`. -/
theorem c10_witness :
    ((⟨SegType.key, "proof body".data, some "7".data, some "Hahn-Banach".data⟩ : KeyStepSegment)
        ∈ parseKeySteps "[[KEY_STEP id=7 theorem=\"Hahn-Banach\"]]proof body[[/KEY_STEP]]".data) ∧
      ("7".data ≠ [] ∧ ∀ c ∈ "7".data, jsWS c = false) ∧
      (∀ c ∈ "Hahn-Banach".data, c ≠ '\"') :=
  ⟨by decide,
   (c10_attribute_invariants "[[KEY_STEP id=7 theorem=\"Hahn-Banach\"]]proof body[[/KEY_STEP]]".data
      ⟨SegType.key, "proof body".data, some "7".data, some "Hahn-Banach".data⟩ (by decide)).1
     "7".data rfl,
   (c10_attribute_invariants "[[KEY_STEP id=7 theorem=\"Hahn-Banach\"]]proof body[[/KEY_STEP]]".data
      ⟨SegType.key, "proof body".data, some "7".data, some "Hahn-Banach".data⟩ (by decide)).2
     "Hahn-Banach".data rfl⟩

/-- C6 counterexample: on
`"A[[KEY_STEP x[[/KEY_STEP]] y]] b[[/KEY_STEP]]"` the marker is paired with
the first terminator from the marker itself — which lies before the
header's closing `]]` — so the produced segments are not the pairing with
the first terminator after the header (which would keep body `" y]] b"` in a
single key segment). -/
theorem c6_counterexample :
    parseKeySteps "A[[KEY_STEP x[[/KEY_STEP]] y]] b[[/KEY_STEP]]".data =
      [⟨SegType.normal, "A".data, none, none⟩,
       ⟨SegType.key, [], none, none⟩,
       ⟨SegType.normal, " y]] b[[/KEY_STEP]]".data, none, none⟩] ∧
    parseKeySteps "A[[KEY_STEP x[[/KEY_STEP]] y]] b[[/KEY_STEP]]".data ≠
      [⟨SegType.normal, "A".data, none, none⟩,
       ⟨SegType.key, " y]] b".data, none, none⟩] := by
  decide

/-- C6 amended: nested key steps are not supported — a start marker is
paired with the first `[[/KEY_STEP]]` terminator at or after the marker
itself (which is the first terminator after that marker's header whenever
the header closes before any terminator occurrence). Whenever the first
terminator occurrence after a `[[KEY_STEP]]` header sits at the end of a
body, the whole body — in particular any `[[KEY_STEP` start marker inside
it — becomes the literal text of one single key segment, and parsing
continues independently after the terminator. -/
theorem c6_no_nesting_amended (body post : List Char)
    (h : jsIndexOf endTag (body ++ (endTag ++ post)) = some body.length) :
    parseKeySteps (startTag ++ ']' :: ']' :: (body ++ (endTag ++ post))) =
      ⟨SegType.key, body, none, none⟩ :: parseKeySteps post := by
  have h13 : endTag.length = 13 := by decide
  have h1 : jsIndexOf startTag (startTag ++ ']' :: ']' :: (body ++ (endTag ++ post))) = some 0 :=
    jsIndexOf_cons_of_pre ⟨']' :: ']' :: (body ++ (endTag ++ post)), rfl⟩
  have hscan : jsIndexOf endTag
      ('[' :: '[' :: 'K' :: 'E' :: 'Y' :: '_' :: 'S' :: 'T' :: 'E' :: 'P' :: ']' :: ']'
        :: (body ++ (endTag ++ post))) = some (12 + body.length) :=
    jsIndexOf_endTag_skip12 h
  have h2 : jsIndexOfFrom endTag (startTag ++ ']' :: ']' :: (body ++ (endTag ++ post))) 0 =
      some (12 + body.length) := by
    simp only [jsIndexOfFrom, List.drop_zero]
    rw [show (startTag ++ ']' :: ']' :: (body ++ (endTag ++ post)))
        = ('[' :: '[' :: 'K' :: 'E' :: 'Y' :: '_' :: 'S' :: 'T' :: 'E' :: 'P' :: ']' :: ']'
            :: (body ++ (endTag ++ post))) from rfl, hscan]
    simp
  have hsplit : startTag ++ ']' :: ']' :: (body ++ (endTag ++ post)) =
      (startTag ++ ']' :: ']' :: (body ++ endTag)) ++ post := by
    simp [List.append_assoc]
  have hAlen : (startTag ++ ']' :: ']' :: (body ++ endTag)).length = 25 + body.length := by
    simp only [List.length_append, List.length_cons, startTag, endTag, List.length_nil]
    omega
  have htac : jsSlice (startTag ++ ']' :: ']' :: (body ++ (endTag ++ post))) 0
      (12 + body.length + endTag.length) = startTag ++ ']' :: ']' :: (body ++ endTag) := by
    rw [hsplit]
    simp only [jsSlice, List.drop_zero]
    exact take_len_append post (by omega)
  have hkey : keySegment (startTag ++ ']' :: ']' :: (body ++ (endTag ++ post))) 0
      (12 + body.length) = ⟨SegType.key, body, none, none⟩ := by
    simp only [keySegment]
    rw [htac]
    rw [show (jsIndexOf closeBrackets (startTag ++ ']' :: ']' :: (body ++ endTag))) = some 10 from
      jsIndexOf_closeBrackets_header (body ++ endTag)]
    simp only [Option.getD_some]
    have hh : jsSlice (startTag ++ ']' :: ']' :: (body ++ endTag)) startTag.length 10 = [] := by
      simp only [jsSlice]
      rw [take_len_append (']' :: ']' :: (body ++ endTag)) (show startTag.length = 10 from rfl)]
      rfl
    have hlen12 : (startTag ++ ']' :: ']' :: (body ++ endTag)).length - endTag.length
        = 12 + body.length := by
      omega
    have hbody : jsSlice (startTag ++ ']' :: ']' :: (body ++ endTag)) (10 + 2)
        ((startTag ++ ']' :: ']' :: (body ++ endTag)).length - endTag.length) = body := by
      rw [hlen12]
      simp only [jsSlice]
      rw [show startTag ++ ']' :: ']' :: (body ++ endTag)
          = (startTag ++ ']' :: ']' :: body) ++ endTag from by simp,
        take_len_append endTag (by
          simp only [List.length_append, List.length_cons, startTag, List.length_nil]
          omega),
        show startTag ++ ']' :: ']' :: body = (startTag ++ [']', ']']) ++ body from by simp,
        drop_len_append body (by decide)]
    rw [hh, hbody]
    rfl
  have hdrop : (startTag ++ ']' :: ']' :: (body ++ (endTag ++ post))).drop
      (12 + body.length + endTag.length) = post := by
    rw [hsplit]
    exact drop_len_append post (by omega)
  rw [parseKeySteps_key_step h1 h2, hkey, hdrop]
  simp

/-- Witness for C6 (amended): the body `"u [[KEY_STEP v"` contains a start
marker, yet it becomes the literal text of one single key segment. -/
theorem c6_witness :
    jsIndexOf endTag ("u [[KEY_STEP v".data ++ (endTag ++ "w".data)) =
        some "u [[KEY_STEP v".data.length ∧
      parseKeySteps (startTag ++ ']' :: ']' :: ("u [[KEY_STEP v".data ++ (endTag ++ "w".data))) =
        ⟨SegType.key, "u [[KEY_STEP v".data, none, none⟩ :: parseKeySteps "w".data :=
  ⟨by decide, c6_no_nesting_amended "u [[KEY_STEP v".data "w".data (by decide)⟩
